import Mathlib

/-!
Shallow embedding of the Portfolio Risk Decomposition Engine
(`purple_swan.analytics`): the factor-risk decomposer
(`factor_risk_calculator.py`) and the historical VaR engine
(`var_engine.py`).  Machine floats are modelled by exact rationals;
IEEE non-finite values (NaN/inf) are modelled by `none : Option ℚ`
where a claim depends on them.  All definitions are translated from
the Python source; spec-side formulas used for comparison are named
separately.
-/

namespace PSwn

/-! ## Factor risk decomposer (`factor_risk_calculator.py`)

The portfolio factor-exposure row vector `W` (shape `(1, F)` in the
source, built as `w @ df_m.values`) and the factor covariance matrix
`C` (shape `(F, F)`) are the inputs from which
`FactorRiskCalculator.calcualte_factor_risk` computes its result.  We
embed the body from `W` on, with `F = m + 1` so that the source's row
index `[0]` exists. -/

/-- Entry `f` of the matrix-vector product `C @ W.T` (shape `(F, 1)` in the source). -/
def dotRow {m : ℕ} (C : Fin (m + 1) → Fin (m + 1) → ℚ) (W : Fin (m + 1) → ℚ)
    (f : Fin (m + 1)) : ℚ :=
  ∑ g, C f g * W g

/-- The scalar `V = W @ C @ W.T` of the source (a `(1,1)` array there). -/
def factorVariance {m : ℕ} (C : Fin (m + 1) → Fin (m + 1) → ℚ)
    (W : Fin (m + 1) → ℚ) : ℚ :=
  ∑ f, W f * dotRow C W f

/-- Entry `f` of `mr = 2 * self.C @ W.T` in the source. -/
def mr {m : ℕ} (C : Fin (m + 1) → Fin (m + 1) → ℚ) (W : Fin (m + 1) → ℚ)
    (f : Fin (m + 1)) : ℚ :=
  2 * dotRow C W f

/-- Entry `f` of `risk_contr = (mr * W)[0]` in the source: `mr` has shape
`(F, 1)` and `W` shape `(1, F)`, so `mr * W` broadcasts to the `(F, F)`
outer product with entry `[i, j] = mr[i] * W[j]`, and row `[0]` is
`j ↦ mr[0] * W[j]`. -/
def risk_contr {m : ℕ} (C : Fin (m + 1) → Fin (m + 1) → ℚ) (W : Fin (m + 1) → ℚ)
    (f : Fin (m + 1)) : ℚ :=
  mr C W 0 * W f

/-- Entry `f` of `risk_pct = risk_contr / (2 * V)` in the source (`V` is the
`(1,1)` array, broadcast over `risk_contr`). -/
def risk_pct {m : ℕ} (C : Fin (m + 1) → Fin (m + 1) → ℚ) (W : Fin (m + 1) → ℚ)
    (f : Fin (m + 1)) : ℚ :=
  risk_contr C W f / (2 * factorVariance C W)

/-- Spec-side per-factor contribution of the Euler decomposition,
`contribution_f = m_f * W_f` (what `risk_contr` was evidently meant to be). -/
def eulerContr {m : ℕ} (C : Fin (m + 1) → Fin (m + 1) → ℚ) (W : Fin (m + 1) → ℚ)
    (f : Fin (m + 1)) : ℚ :=
  mr C W f * W f

/-- Errors raised by `calcualte_factor_risk`: a `None` factor matrix raises
`Exception`, and `math.sqrt` of a negative variance raises `ValueError`. -/
inductive FactorRiskError where
  | missingFactorMatrix : FactorRiskError
  | sqrtDomain : FactorRiskError
deriving DecidableEq

/-- Embeds the error structure of `FactorRiskCalculator.calcualte_factor_risk`:
the only explicit raise is for a missing factor matrix; `math.sqrt(V)` raises
for `V < 0`; no `V == 0` check exists, so the division `risk_contr / (2 * V)`
is always performed.  IEEE division by zero yields non-finite values (NaN/inf),
modelled by `none`; a finite quotient is `some`. -/
def calcualte_factor_risk {m : ℕ} (C : Fin (m + 1) → Fin (m + 1) → ℚ)
    (Wopt : Option (Fin (m + 1) → ℚ)) :
    Except FactorRiskError (ℚ × (Fin (m + 1) → Option ℚ)) :=
  match Wopt with
  | none => .error .missingFactorMatrix
  | some W =>
    let V := factorVariance C W
    if V < 0 then .error .sqrtDomain
    else .ok (V, fun f => if V = 0 then none else some (risk_pct C W f))

/-- Concrete 2×2 identity factor covariance matrix (positive definite). -/
def Cid : Fin 2 → Fin 2 → ℚ := fun i j => if i = j then 1 else 0

/-- Concrete non-zero portfolio factor-exposure vector `(1, 2)`. -/
def Wex : Fin 2 → ℚ := fun i => if i = 0 then 1 else 2

/-- Boolean success test for `Except` values. -/
def isOk {ε α : Type _} : Except ε α → Bool
  | .ok _ => true
  | .error _ => false

/-! ## Historical VaR engine (`var_engine.py`) -/

/-- Python `int()` truncation toward zero. -/
def pyInt (x : ℚ) : ℤ := if 0 ≤ x then ⌊x⌋ else -⌊-x⌋

/-- The tail size `k = int((1.0 - ci) * T)` computed by `calc_var_core`. -/
def kOf (ci : ℚ) (T : ℕ) : ℤ := pyInt ((1 - ci) * T)

/-- NumPy `kth` index resolution for an array of length `T`: a negative `kth`
counts from the end, and a `kth` outside `[-T, T-1]` raises `ValueError`
(this is also the behaviour of `idx[k]` indexing in the source). -/
def npKth (T : ℕ) (k : ℤ) : Option ℕ :=
  if 0 ≤ k ∧ k < (T : ℤ) then some k.toNat
  else if -(T : ℤ) ≤ k ∧ k < 0 then some (k + T).toNat
  else none

/-- Python slice `idx[:k]`: a non-negative `k` takes the first `k` elements,
a negative `k` drops the last `|k|`. -/
def pySlice {α : Type _} (l : List α) (k : ℤ) : List α :=
  if 0 ≤ k then l.take k.toNat else l.take (l.length - (-k).toNat)

/-- Dot product of a matrix row with the weight vector, as in `R @ W`. -/
def dot (row W : List ℚ) : ℚ := (List.zipWith (fun a b => a * b) row W).sum

/-- Shape compatibility of `R @ W` and `R * W`: every row of `R` has the
length of `W` (NumPy raises a `ValueError` otherwise). -/
def shapeOk (R : List (List ℚ)) (W : List ℚ) : Bool :=
  R.all (fun row => row.length = W.length)

/-- The portfolio P&L series `P = self.R @ self.W` (one value per date row). -/
def matVec (R : List (List ℚ)) (W : List ℚ) : List ℚ :=
  R.map (fun row => dot row W)

/-- Models `numpy.argpartition(P, kth)` by a stable full argsort of the index
range: NumPy guarantees that position `kth` holds the index of the value that
would sit at position `kth` in a full ascending sort, with no larger value
before it and no smaller value after it; a stable argsort satisfies that
contract (the particular permutation NumPy returns is unspecified). -/
def argpartition (P : List ℚ) : List ℕ :=
  List.insertionSort (fun i j => P.getD i 0 ≤ P.getD j 0) (List.range P.length)

/-- Spec-side fully sorted ascending copy of a series. -/
def sortedAsc (P : List ℚ) : List ℚ :=
  List.insertionSort (fun a b => a ≤ b) P

/-- Models position `kth` of `numpy.partition(col, kth)`: the value that
would occupy rank `kth` of the column in ascending order (NumPy's documented
guarantee for the partitioned position). -/
def npPartitionVal (col : List ℚ) (kth : ℕ) : ℚ :=
  (sortedAsc col).getD kth 0

/-- Errors the VaR engine surfaces: a NumPy matmul shape mismatch at
`P = self.R @ self.W`, or a `kth` out of bounds in `argpartition`. -/
inductive VarError where
  | shapeMismatch : VarError
  | kthOutOfBounds : VarError
deriving DecidableEq

/-- The `VaR` result object of `var_engine.py`.  `es` is `none` when the
source's `np.mean([P[i] for i in idx[:k]])` runs on an empty tail (IEEE NaN);
`marginal_var` keeps the source's trailing comma
(`self.marginal_var = marginal_var,`), which stores a 1-tuple wrapping the
per-asset list, modelled as the outer level of a `List (List ℚ)`. -/
structure VarResult where
  ci : ℚ
  var : ℚ
  var_index : ℕ
  es : Option ℚ
  tail_indexes : List ℕ
  marginal_var : List (List ℚ)
  incremental_var : List ℚ
deriving DecidableEq, Inhabited

/-- Builds the `VaR` record of one `calc_var` loop iteration given the raw
`k = int((1.0 - ci) * T)` and its NumPy-resolved position `kk`.  Each binding
mirrors one source line: `idx = argpartition(P, k)`; `vars_[i] = -P[idx[k]]`;
`es = np.mean([P[i] for i in idx[:k]])`; `var = -1 * float(vars_[i])`;
`P_wo = P[:, None] - self.R * self.W`;
`kth_vals = np.partition(P_wo, k, axis=0)[k, :]`; `var_wo = -kth_vals`;
`mar_var = var - var_wo`; `var_idx = int(idx[k])`;
`inc_var = self.R[var_idx, :] * self.W`. -/
def mkResult (R : List (List ℚ)) (W P : List ℚ) (ci : ℚ) (k : ℤ) (kk : ℕ) :
    VarResult :=
  let idx := argpartition P
  let varCore : ℚ := -(P.getD (idx.getD kk 0) 0)
  let tail := pySlice idx k
  let es : Option ℚ :=
    if tail.length = 0 then none
    else some ((tail.map (fun i => P.getD i 0)).sum / tail.length)
  let var : ℚ := -1 * varCore
  let var_wo : ℕ → ℚ := fun j =>
    -(npPartitionVal
        ((List.range P.length).map
          (fun t => P.getD t 0 - (R.getD t []).getD j 0 * W.getD j 0)) kk)
  let mar_var := (List.range W.length).map (fun j => var - var_wo j)
  let var_idx := idx.getD kk 0
  let inc_var := (List.range W.length).map
    (fun j => (R.getD var_idx []).getD j 0 * W.getD j 0)
  { ci := ci, var := var, var_index := var_idx, es := es,
    tail_indexes := tail, marginal_var := [mar_var],
    incremental_var := inc_var }

/-- One iteration of `VarEngine.calc_var` (with the corresponding
`calc_var_core` pass) at confidence level `ci` over the P&L series `P`. -/
def calc_var1 (R : List (List ℚ)) (W P : List ℚ) (ci : ℚ) :
    Except VarError VarResult :=
  match npKth P.length (kOf ci P.length) with
  | none => .error .kthOutOfBounds
  | some kk => .ok (mkResult R W P ci (kOf ci P.length) kk)

/-- Runs the per-confidence-level passes in order; the first raised error
aborts the whole call, as a Python exception would. -/
def runPasses (f : ℚ → Except VarError VarResult) :
    List ℚ → Except VarError (List VarResult)
  | [] => .ok []
  | c :: cs =>
    match f c with
    | .error e => .error e
    | .ok r =>
      match runPasses f cs with
      | .error e => .error e
      | .ok rs => .ok (r :: rs)

/-- `VarEngine.calc_var(cis)`: computes `P = self.R @ self.W` (NumPy raises
on a shape mismatch there, before the loop runs) and then runs one pass per
confidence level. -/
def calc_var (R : List (List ℚ)) (W : List ℚ) (cis : List ℚ) :
    Except VarError (List VarResult) :=
  if shapeOk R W then runPasses (calc_var1 R W (matVec R W)) cis
  else .error .shapeMismatch

/-- First result of a successful `calc_var` call (`default` on error or an
empty result list). -/
def firstResult (e : Except VarError (List VarResult)) : VarResult :=
  match e with
  | .ok (r :: _) => r
  | _ => default

/-- Spec-side leave-one-out P&L series for asset `j`:
`P - R[:, j] * W[j]` at every date `t`. -/
def looSeries (R : List (List ℚ)) (W P : List ℚ) (j : ℕ) : List ℚ :=
  (List.range P.length).map
    (fun t => P.getD t 0 - (R.getD t []).getD j 0 * W.getD j 0)

/-- Spec-side leave-one-out VaR for asset `j`: the negated rank-`k` ascending
order statistic of the leave-one-out series. -/
def looVaR (R : List (List ℚ)) (W P : List ℚ) (k j : ℕ) : ℚ :=
  -((sortedAsc (looSeries R W P j)).getD k 0)

/-- Models `DataFrame.pct_change(1)` applied to the raw time-series matrix
`X` in `VarEngine.__init__` (rows are dates): row `0` is all-NaN (`none`),
and row `t ≥ 1` holds `(X[t, j] - X[t-1, j]) / X[t-1, j]`, non-finite when
the previous value is `0`. -/
def pct_change (X : List (List ℚ)) : List (List (Option ℚ)) :=
  (List.range X.length).map (fun t =>
    if t = 0 then (X.getD 0 []).map (fun _ => (none : Option ℚ))
    else ((X.getD t []).zip (X.getD (t - 1) [])).map
      (fun p => if p.2 = 0 then none else some ((p.1 - p.2) / p.2)))

/-- IEEE dot product of a return row that may contain NaNs with the weight
vector: any non-finite entry makes the whole sum non-finite, since `NaN * w`
is `NaN` even for `w = 0`. -/
def dotOpt (row : List (Option ℚ)) (W : List ℚ) : Option ℚ :=
  (row.zip W).foldr
    (fun p acc =>
      match p.1, acc with
      | some x, some s => some (x * p.2 + s)
      | _, _ => none)
    (some 0)

/-- Concrete single-asset return matrix realising the spec's §8 scenario:
under weight `[1]` the P&L series is `[-5, -3, -1, 0, 1, 2, 2, 3, 4, 5]`. -/
def Rex : List (List ℚ) := [[-5], [-3], [-1], [0], [1], [2], [2], [3], [4], [5]]

/-- Concrete two-asset, two-period return matrix. -/
def Rex2 : List (List ℚ) := [[1/10, -1/5], [-1/10, 1/10]]

/-- C1: at the positive-definite covariance `Cid` (the 2×2 identity) and the
non-zero exposure vector `Wex = (1, 2)` (so `V = 5 > 0`), the per-factor
percentage contributions computed by `calcualte_factor_risk` sum to `3/5`,
not `1`: the source's `(mr * W)[0]` takes row 0 of an `(F, F)` broadcast
outer product, yielding `m_0 * W_f` in place of the Euler term `m_f * W_f`
(whose percentages do sum to 1). -/
theorem factor_pct_sum_violation :
    0 < factorVariance Cid Wex ∧ (∑ f, risk_pct Cid Wex f) = 3 / 5 ∧
      (∑ f, eulerContr Cid Wex f) / (2 * factorVariance Cid Wex) = 1 ∧
      (3 / 5 : ℚ) ≠ 1 := by
  refine ⟨?_, ?_, ?_, ?_⟩ <;>
    norm_num [factorVariance, risk_pct, risk_contr, eulerContr, mr, dotRow,
      Cid, Wex, Fin.sum_univ_succ]

/-- C8 (counterexample): at `V = 0` (zero exposure vector against `Cid`),
`calcualte_factor_risk` does not report any error: it returns an `ok`
result, so the `V == 0` zero-risk portfolio is not detected as a distinct
error condition. -/
theorem factor_zero_variance_not_rejected :
    factorVariance Cid (fun _ => 0) = 0 ∧
      isOk (calcualte_factor_risk Cid (some (fun _ => 0))) = true := by
  have h0 : factorVariance Cid (fun _ => (0 : ℚ)) = 0 := by
    norm_num [factorVariance, dotRow, Fin.sum_univ_succ]
  refine ⟨h0, ?_⟩
  simp [calcualte_factor_risk, h0, isOk]

/-- C8 (amended): whenever the portfolio factor variance `V` is `0`,
`calcualte_factor_risk` raises no error: the division `risk_contr / (2 * V)`
is performed anyway and every returned percentage contribution is non-finite
(NaN/inf, modelled `none`), silently propagated to the caller. -/
theorem factor_zero_variance_silent_nan {m : ℕ}
    (C : Fin (m + 1) → Fin (m + 1) → ℚ) (W : Fin (m + 1) → ℚ)
    (hV : factorVariance C W = 0) :
    calcualte_factor_risk C (some W) = .ok (0, fun _ => none) := by
  simp only [calcualte_factor_risk, hV]
  norm_num

/-- C8 (witness): the amended statement instantiated at the identity
covariance and the zero exposure vector. -/
theorem factor_zero_variance_silent_nan_witness :
    calcualte_factor_risk Cid (some (fun _ => 0)) = .ok (0, fun _ => none) :=
  factor_zero_variance_silent_nan Cid (fun _ => 0)
    (by norm_num [factorVariance, dotRow, Fin.sum_univ_succ])

/-! ## Supporting lemmas on the selection model -/

/-- Reading a list back off its index range recovers the list. -/
theorem map_getD_range (P : List ℚ) :
    (List.range P.length).map (fun i => P.getD i 0) = P := by
  apply List.ext_getElem
  · simp
  · intro n h1 h2
    rw [List.getElem_map, List.getElem_range, List.getD_eq_getElem _ _ h2]

/-- The index permutation has the length of the series. -/
theorem length_argpartition (P : List ℚ) :
    (argpartition P).length = P.length := by
  simp [argpartition]

/-- Reading the series along the stable argsort produces the fully sorted
ascending copy of the series. -/
theorem argpartition_map_getD (P : List ℚ) :
    (argpartition P).map (fun i => P.getD i 0) = sortedAsc P := by
  haveI hTot : IsTotal ℕ (fun i j => P.getD i 0 ≤ P.getD j 0) :=
    ⟨fun a b => le_total _ _⟩
  haveI hTrans : IsTrans ℕ (fun i j => P.getD i 0 ≤ P.getD j 0) :=
    ⟨fun a b c hab hbc => le_trans hab hbc⟩
  have hperm : ((argpartition P).map (fun i => P.getD i 0)).Perm P := by
    have h1 :=
      (List.perm_insertionSort (fun i j => P.getD i 0 ≤ P.getD j 0)
        (List.range P.length)).map (fun i => P.getD i 0)
    rw [map_getD_range] at h1
    exact h1
  have hsorted :
      List.Sorted (fun a b : ℚ => a ≤ b)
        ((argpartition P).map (fun i => P.getD i 0)) :=
    List.Pairwise.map _ (fun a b h => h)
      (List.sorted_insertionSort (fun i j => P.getD i 0 ≤ P.getD j 0)
        (List.range P.length))
  have hperm2 : (sortedAsc P).Perm P := List.perm_insertionSort _ _
  have hsorted2 : List.Sorted (fun a b : ℚ => a ≤ b) (sortedAsc P) :=
    List.sorted_insertionSort _ _
  exact List.eq_of_perm_of_sorted (hperm.trans hperm2.symm) hsorted hsorted2

/-- The partial-selection value `P[idx[kk]]` is the rank-`kk` entry of the
fully sorted copy. -/
theorem selection_eq_sorted {P : List ℚ} {kk : ℕ} (hk : kk < P.length) :
    P.getD ((argpartition P).getD kk 0) 0 = (sortedAsc P).getD kk 0 := by
  have h2 : kk < (argpartition P).length := by
    rw [length_argpartition]; exact hk
  have h4 := congrArg (fun l => l.getD kk (0 : ℚ)) (argpartition_map_getD P)
  simp only at h4
  rw [List.getD_eq_getElem _ _ (by simpa [length_argpartition] using hk),
    List.getElem_map] at h4
  rw [← h4, List.getD_eq_getElem _ _ h2]

/-- Entries of the index permutation are valid positions in the series. -/
theorem argpartition_getD_lt {P : List ℚ} {kk : ℕ} (hk : kk < P.length) :
    (argpartition P).getD kk 0 < P.length := by
  have h2 : kk < (argpartition P).length := by
    rw [length_argpartition]; exact hk
  rw [List.getD_eq_getElem _ _ h2]
  have hmem : (argpartition P)[kk] ∈ argpartition P := List.getElem_mem h2
  have hmem2 : (argpartition P)[kk] ∈ List.range P.length :=
    (List.perm_insertionSort _ _).mem_iff.1 hmem
  exact List.mem_range.1 hmem2

/-- With `ci ≤ 1` the Python truncation in `k = int((1.0 - ci) * T)` is the
mathematical floor. -/
theorem kOf_eq_floor {ci : ℚ} (T : ℕ) (h1 : ci ≤ 1) :
    kOf ci T = ⌊(1 - ci) * T⌋ := by
  have hx : (0 : ℚ) ≤ (1 - ci) * T := mul_nonneg (by linarith) (by positivity)
  simp [kOf, pyInt, hx]

/-- The tail size is non-negative for `ci ≤ 1`. -/
theorem kOf_nonneg {ci : ℚ} (T : ℕ) (h1 : ci ≤ 1) : 0 ≤ kOf ci T := by
  rw [kOf_eq_floor T h1]
  exact Int.floor_nonneg.2 (mul_nonneg (by linarith) (by positivity))

/-- The tail size is below `T` for `0 < ci ≤ 1` and a non-empty series. -/
theorem kOf_lt {ci : ℚ} {T : ℕ} (h0 : 0 < ci) (hT : 0 < T) (h1 : ci ≤ 1) :
    kOf ci T < T := by
  rw [kOf_eq_floor T h1, Int.floor_lt]
  push_cast
  have hTQ : (0 : ℚ) < T := by exact_mod_cast hT
  nlinarith

/-- An in-range `kth` is resolved to itself. -/
theorem npKth_of_lt {T : ℕ} {k : ℤ} (h0 : 0 ≤ k) (h1 : k < T) :
    npKth T k = some k.toNat := by
  simp [npKth, h0, h1]

set_option maxHeartbeats 1000000 in
/-- A successful single-confidence-level run of `calc_var` yields the
`mkResult` record at the resolved tail size. -/
theorem calc_var_single_ok (R : List (List ℚ)) (W : List ℚ) (ci : ℚ)
    (hsh : shapeOk R W = true) (h0 : 0 < ci) (h1 : ci < 1)
    (hT : 0 < (matVec R W).length) :
    calc_var R W [ci] =
      .ok [mkResult R W (matVec R W) ci (kOf ci (matVec R W).length)
        (kOf ci (matVec R W).length).toNat] := by
  have hnn := kOf_nonneg (matVec R W).length h1.le
  have hlt := kOf_lt h0 hT h1.le
  simp only [calc_var, hsh, if_true, runPasses, calc_var1,
    npKth_of_lt hnn hlt]

/-- The first result of a successful single-confidence-level run. -/
theorem firstResult_single (R : List (List ℚ)) (W : List ℚ) (ci : ℚ)
    (hsh : shapeOk R W = true) (h0 : 0 < ci) (h1 : ci < 1)
    (hT : 0 < (matVec R W).length) :
    firstResult (calc_var R W [ci]) =
      mkResult R W (matVec R W) ci (kOf ci (matVec R W).length)
        (kOf ci (matVec R W).length).toNat := by
  rw [calc_var_single_ok R W ci hsh h0 h1 hT, firstResult]

/-- Every row selected by `shapeOk` has the weight vector's length. -/
theorem shapeOk_row {R : List (List ℚ)} {W : List ℚ} (h : shapeOk R W = true)
    {t : ℕ} (ht : t < R.length) : (R.getD t []).length = W.length := by
  rw [shapeOk, List.all_eq_true] at h
  rw [List.getD_eq_getElem _ _ ht]
  exact of_decide_eq_true (h _ (List.getElem_mem ht))

/-- The P&L series has one entry per date row. -/
theorem length_matVec (R : List (List ℚ)) (W : List ℚ) :
    (matVec R W).length = R.length := by
  simp [matVec]

/-- One entry of the P&L series is the dot product of the date row with the
weights. -/
theorem matVec_getD {R : List (List ℚ)} {W : List ℚ} {t : ℕ}
    (ht : t < R.length) :
    (matVec R W).getD t 0 = dot (R.getD t []) W := by
  have ht2 : t < (matVec R W).length := by rw [length_matVec]; exact ht
  rw [List.getD_eq_getElem _ _ ht2, List.getD_eq_getElem _ _ ht]
  simp [matVec]

/-- The dot product written as a sum over column positions. -/
theorem dot_eq_range_sum (row W : List ℚ) (h : row.length = W.length) :
    ((List.range W.length).map (fun j => row.getD j 0 * W.getD j 0)).sum =
      dot row W := by
  induction W generalizing row with
  | nil =>
    cases row with
    | nil => simp [dot]
    | cons x xs => simp at h
  | cons w ws ih =>
    cases row with
    | nil => simp at h
    | cons x xs =>
      have h2 : xs.length = ws.length := by simpa using h
      have := ih xs h2
      simp only [List.length_cons, List.range_succ_eq_map, List.map_cons,
        List.map_map, List.sum_cons, List.getD_cons_zero]
      rw [show ((fun j => (x :: xs).getD j 0 * (w :: ws).getD j 0) ∘ Nat.succ)
          = (fun j => xs.getD j 0 * ws.getD j 0) from rfl]
      rw [this]
      simp [dot]

/-! ## Claim theorems for the historical VaR engine -/

/-- C5: for every non-empty P&L series and confidence level in `(0, 1)`, the
engine's tail size is `k = ⌊(1 - ci) * T⌋`, and the value the partial
selection places at position `k` (`P[idx[k]]`, the element `argpartition`
puts there) is exactly the rank-`k` (0-based) entry of a fully sorted
ascending copy of the series. -/
theorem selection_matches_full_sort (P : List ℚ) (ci : ℚ)
    (h0 : 0 < ci) (h1 : ci < 1) (hT : 0 < P.length) :
    kOf ci P.length = ⌊(1 - ci) * (P.length : ℚ)⌋ ∧
      P.getD ((argpartition P).getD (kOf ci P.length).toNat 0) 0 =
        (sortedAsc P).getD (kOf ci P.length).toNat 0 := by
  refine ⟨kOf_eq_floor P.length h1.le, ?_⟩
  apply selection_eq_sorted
  have hnn := kOf_nonneg P.length h1.le
  have hlt := kOf_lt h0 hT h1.le
  omega

/-- C5 (witness): the general selection theorem instantiated at the series
`[3, 1, 2]` with `ci = 1/2`, where `k = 1` and the selected value is the
median `2`. -/
theorem selection_matches_full_sort_witness :
    kOf (1 / 2) ([(3 : ℚ), 1, 2]).length =
        ⌊(1 - 1 / 2) * (([(3 : ℚ), 1, 2]).length : ℚ)⌋ ∧
      ([(3 : ℚ), 1, 2]).getD
          ((argpartition [(3 : ℚ), 1, 2]).getD
            (kOf (1 / 2) ([(3 : ℚ), 1, 2]).length).toNat 0) 0 =
        (sortedAsc [(3 : ℚ), 1, 2]).getD
          (kOf (1 / 2) ([(3 : ℚ), 1, 2]).length).toNat 0 :=
  selection_matches_full_sort [3, 1, 2] (1 / 2) (by norm_num) (by norm_num)
    (by norm_num)

/-- C2: in the spec's §8 scenario (P&L series
`[-5, -3, -1, 0, 1, 2, 2, 3, 4, 5]` under weight `[1]`, `ci = 0.8`, tail
size `k = 2`), the VaR scalar returned by `calc_var` is `-1`, the raw
rank-2 order statistic itself, not its negation `1`: `calc_var_core`
already returns `-P[idx[k]]` and `calc_var` negates it a second time with
`var = -1 * float(vars_[i])`. -/
theorem var_sign_flip_eval :
    kOf (4 / 5) (matVec Rex [1]).length = 2 ∧
      (firstResult (calc_var Rex [1] [4 / 5])).var = -1 ∧
      -((sortedAsc (matVec Rex [1])).getD 2 0) = 1 ∧
      (-1 : ℚ) ≠ 1 := by
  have hP : matVec Rex [1] = [-5, -3, -1, 0, 1, 2, 2, 3, 4, 5] := by
    norm_num [matVec, dot, Rex]
  have hsorted :
      sortedAsc [(-5 : ℚ), -3, -1, 0, 1, 2, 2, 3, 4, 5] =
        [-5, -3, -1, 0, 1, 2, 2, 3, 4, 5] := by
    norm_num [sortedAsc, List.insertionSort, List.orderedInsert]
  have hk : kOf (4 / 5) (matVec Rex [1]).length = 2 := by
    rw [hP]
    norm_num [kOf, pyInt]
  have hsh : shapeOk Rex [1] = true := by decide
  have hT : 0 < (matVec Rex [1]).length := by rw [hP]; norm_num
  have hsel : (matVec Rex [1]).getD
      ((argpartition (matVec Rex [1])).getD 2 0) 0 =
        (sortedAsc (matVec Rex [1])).getD 2 0 := by
    apply selection_eq_sorted
    rw [hP]
    norm_num
  refine ⟨hk, ?_, ?_, by norm_num⟩
  · rw [firstResult_single Rex [1] (4 / 5) hsh (by norm_num) (by norm_num) hT]
    simp only [mkResult, hk]
    rw [show ((2 : ℤ)).toNat = 2 from rfl, hsel, hP, hsorted]
    norm_num
  · rw [hP, hsorted]
    norm_num

/-- C3: each marginal-VaR entry `j` of a successful `calc_var` result (read
through the stored 1-tuple, as the source's own callers do) equals the
result's full-portfolio VaR minus the leave-one-out VaR of asset `j`, where
the leave-one-out series is `P - R[:, j] * W[j]` and its VaR is the negated
rank-`k` ascending order statistic of that series, `k = ⌊(1 - ci) * T⌋`. -/
theorem marginal_var_decomposition (R : List (List ℚ)) (W : List ℚ) (ci : ℚ)
    (hsh : shapeOk R W = true) (h0 : 0 < ci) (h1 : ci < 1)
    (hT : 0 < (matVec R W).length) (j : ℕ) (hj : j < W.length) :
    ((firstResult (calc_var R W [ci])).marginal_var.getD 0 []).getD j 0 =
      (firstResult (calc_var R W [ci])).var -
        looVaR R W (matVec R W) (kOf ci (matVec R W).length).toNat j := by
  rw [firstResult_single R W ci hsh h0 h1 hT]
  simp only [mkResult, looVaR, looSeries, npPartitionVal, List.getD_cons_zero]
  have hj2 : j < ((List.range W.length).map
      (fun j => -1 * -(matVec R W).getD
          ((argpartition (matVec R W)).getD
            (kOf ci (matVec R W).length).toNat 0) 0 -
        -(sortedAsc ((List.range (matVec R W).length).map
            (fun t => (matVec R W).getD t 0 -
              (R.getD t []).getD j 0 * W.getD j 0))).getD
          (kOf ci (matVec R W).length).toNat 0)).length := by
    simpa using hj
  rw [List.getD_eq_getElem _ _ hj2, List.getElem_map, List.getElem_range]

/-- C3 (witness): the marginal-VaR decomposition instantiated at the
two-asset matrix `Rex2`, unit weights, `ci = 1/2` and asset `0`. -/
theorem marginal_var_decomposition_witness :
    ((firstResult (calc_var Rex2 [1, 1] [1 / 2])).marginal_var.getD 0
        []).getD 0 0 =
      (firstResult (calc_var Rex2 [1, 1] [1 / 2])).var -
        looVaR Rex2 [1, 1] (matVec Rex2 [1, 1])
          (kOf (1 / 2) (matVec Rex2 [1, 1]).length).toNat 0 :=
  marginal_var_decomposition Rex2 [1, 1] (1 / 2) (by decide) (by norm_num)
    (by norm_num) (by norm_num [matVec, Rex2]) 0 (by norm_num)

/-- C4: the incremental-VaR vector of every successful `calc_var` result
sums exactly to the portfolio P&L value at the result's VaR-day index:
`inc_var = R[var_idx, :] * W` entrywise, and its total is
`P[var_idx] = Σ_j R[var_idx, j] * W[j]`. -/
theorem incremental_var_sum (R : List (List ℚ)) (W : List ℚ) (ci : ℚ)
    (hsh : shapeOk R W = true) (h0 : 0 < ci) (h1 : ci < 1)
    (hT : 0 < (matVec R W).length) :
    (firstResult (calc_var R W [ci])).incremental_var.sum =
      (matVec R W).getD (firstResult (calc_var R W [ci])).var_index 0 := by
  rw [firstResult_single R W ci hsh h0 h1 hT]
  simp only [mkResult]
  have hklt : (kOf ci (matVec R W).length).toNat < (matVec R W).length := by
    have h2 := kOf_lt h0 hT h1.le
    have h3 := kOf_nonneg (matVec R W).length h1.le
    omega
  have htlt :
      (argpartition (matVec R W)).getD
          (kOf ci (matVec R W).length).toNat 0 < R.length := by
    rw [← length_matVec R W]
    exact argpartition_getD_lt hklt
  rw [dot_eq_range_sum _ _ (shapeOk_row hsh htlt), matVec_getD htlt]

/-- C4 (witness): the additive incremental-VaR decomposition instantiated
at the two-asset matrix `Rex2`, unit weights and `ci = 1/2`. -/
theorem incremental_var_sum_witness :
    (firstResult (calc_var Rex2 [1, 1] [1 / 2])).incremental_var.sum =
      (matVec Rex2 [1, 1]).getD
        (firstResult (calc_var Rex2 [1, 1] [1 / 2])).var_index 0 :=
  incremental_var_sum Rex2 [1, 1] (1 / 2) (by decide) (by norm_num)
    (by norm_num) (by norm_num [matVec, Rex2])

/-- The head of the sorted copy bounds every member of the series below. -/
theorem sortedAsc_getD_zero_le {P : List ℚ} {x : ℚ} (hx : x ∈ P) :
    (sortedAsc P).getD 0 0 ≤ x := by
  have hs : List.Sorted (fun a b : ℚ => a ≤ b) (sortedAsc P) :=
    List.sorted_insertionSort _ _
  have hx2 : x ∈ sortedAsc P := by simpa [sortedAsc] using hx
  cases hl : sortedAsc P with
  | nil => rw [hl] at hx2; simp at hx2
  | cons a l =>
    rw [hl] at hx2 hs
    rw [List.getD_cons_zero]
    rcases List.mem_cons.1 hx2 with h | h
    · exact le_of_eq h.symm
    · exact (List.sorted_cons.1 hs).1 x h

/-- The head of the sorted copy of a non-empty series is a member of the
series. -/
theorem sortedAsc_getD_zero_mem {P : List ℚ} (hT : 0 < P.length) :
    (sortedAsc P).getD 0 0 ∈ P := by
  have h0 : 0 < (sortedAsc P).length := by simpa [sortedAsc] using hT
  rw [List.getD_eq_getElem _ _ h0]
  have hmem : (sortedAsc P)[0] ∈ sortedAsc P := List.getElem_mem h0
  exact ((List.perm_insertionSort _ P).mem_iff).1 hmem

/-- C9 (amended): whenever the tail size `k = int((1 - ci) * T)` is `0`,
`calc_var` completes without indexing error (the partition at `kth = 0`
selects the minimum): the returned VaR equals the single worst observation
(the minimum P&L value), and the empty-tail ES (`np.mean([])`, IEEE NaN,
modelled `none`) is returned silently instead of being surfaced as a
distinct named degenerate condition. -/
theorem k_zero_var_min_es_nan (R : List (List ℚ)) (W : List ℚ) (ci : ℚ)
    (hsh : shapeOk R W = true) (h0 : 0 < ci) (h1 : ci < 1)
    (hT : 0 < (matVec R W).length)
    (hk : kOf ci (matVec R W).length = 0) :
    isOk (calc_var R W [ci]) = true ∧
      (firstResult (calc_var R W [ci])).es = none ∧
      (firstResult (calc_var R W [ci])).var ∈ matVec R W ∧
      ∀ x ∈ matVec R W, (firstResult (calc_var R W [ci])).var ≤ x := by
  have hrun := calc_var_single_ok R W ci hsh h0 h1 hT
  have hfr := firstResult_single R W ci hsh h0 h1 hT
  have hvar : (firstResult (calc_var R W [ci])).var =
      (sortedAsc (matVec R W)).getD 0 0 := by
    rw [hfr]
    simp only [mkResult, hk, Int.toNat_zero]
    rw [selection_eq_sorted hT]
    ring
  refine ⟨by rw [hrun]; rfl, ?_, ?_, ?_⟩
  · rw [hfr]
    simp [mkResult, hk, pySlice]
  · rw [hvar]
    exact sortedAsc_getD_zero_mem hT
  · intro x hx
    rw [hvar]
    exact sortedAsc_getD_zero_le hx

/-- C9 (counterexample): at `ci = 0.99` over the 10-observation scenario
series the tail size is `k = 0`; the call succeeds and the ES field is NaN
(modelled `none`) — no distinct named degenerate condition is surfaced. -/
theorem k_zero_es_nan_eval :
    kOf (99 / 100) (matVec Rex [1]).length = 0 ∧
      isOk (calc_var Rex [1] [99 / 100]) = true ∧
      (firstResult (calc_var Rex [1] [99 / 100])).es = none := by
  have hP : matVec Rex [1] = [-5, -3, -1, 0, 1, 2, 2, 3, 4, 5] := by
    norm_num [matVec, dot, Rex]
  have hT : 0 < (matVec Rex [1]).length := by rw [hP]; norm_num
  have hk : kOf (99 / 100) (matVec Rex [1]).length = 0 := by
    rw [hP]
    norm_num [kOf, pyInt]
  have hrun := calc_var_single_ok Rex [1] (99 / 100) (by decide)
    (by norm_num) (by norm_num) hT
  refine ⟨hk, by rw [hrun]; rfl, ?_⟩
  rw [firstResult_single Rex [1] (99 / 100) (by decide) (by norm_num)
    (by norm_num) hT]
  simp [mkResult, hk, pySlice]

/-- C9 (witness): the `k = 0` policy theorem instantiated at the scenario
series with `ci = 0.99`. -/
theorem k_zero_var_min_es_nan_witness :
    isOk (calc_var Rex [1] [99 / 100]) = true ∧
      (firstResult (calc_var Rex [1] [99 / 100])).es = none ∧
      (firstResult (calc_var Rex [1] [99 / 100])).var ∈ matVec Rex [1] := by
  have hP : matVec Rex [1] = [-5, -3, -1, 0, 1, 2, 2, 3, 4, 5] := by
    norm_num [matVec, dot, Rex]
  have h := k_zero_var_min_es_nan Rex [1] (99 / 100) (by decide)
    (by norm_num) (by norm_num) (by rw [hP]; norm_num)
    (by rw [hP]; norm_num [kOf, pyInt])
  exact ⟨h.1, h.2.1, h.2.2.1⟩

/-- C7 (counterexample): the confidence level `1` lies outside `(0, 1)` yet
`calc_var` raises nothing: `k = int(0.0 * T) = 0` resolves in range and a
normal result is returned. -/
theorem ci_one_not_rejected :
    ¬(0 < (1 : ℚ) ∧ (1 : ℚ) < 1) ∧ isOk (calc_var Rex [1] [1]) = true := by
  refine ⟨by norm_num, ?_⟩
  have hP : matVec Rex [1] = [-5, -3, -1, 0, 1, 2, 2, 3, 4, 5] := by
    norm_num [matVec, dot, Rex]
  have hkth : npKth (matVec Rex [1]).length
      (kOf 1 (matVec Rex [1]).length) = some 0 := by
    rw [hP]
    norm_num [npKth, kOf, pyInt]
  have hsh : shapeOk Rex [1] = true := by decide
  simp only [calc_var, hsh, if_true, runPasses, calc_var1, hkth, isOk]

/-- C7 (amended): `calc_var` does fail on a weight-vector length mismatch
(the NumPy matmul shape error at `P = self.R @ self.W`) and on an empty
time dimension with at least one confidence level requested (the
`argpartition` `kth` bound check); but a confidence level outside `(0, 1)`
is not uniformly rejected — `ci = 1` is accepted and produces the `k = 0`
result — and no finiteness validation of the return matrix exists in the
source. -/
theorem invalid_input_failures :
    (∀ (R : List (List ℚ)) (W : List ℚ) (cis : List ℚ),
        shapeOk R W = false → calc_var R W cis = .error .shapeMismatch) ∧
      (∀ (W : List ℚ) (ci : ℚ) (cis : List ℚ),
        calc_var [] W (ci :: cis) = .error .kthOutOfBounds) ∧
      isOk (calc_var Rex [1] [1]) = true := by
  refine ⟨?_, ?_, ?_⟩
  · intro R W cis hsh
    simp [calc_var, hsh]
  · intro W ci cis
    simp [calc_var, shapeOk, runPasses, calc_var1, matVec, npKth, kOf, pyInt]
  · have hP : matVec Rex [1] = [-5, -3, -1, 0, 1, 2, 2, 3, 4, 5] := by
      norm_num [matVec, dot, Rex]
    have hkth : npKth (matVec Rex [1]).length
        (kOf 1 (matVec Rex [1]).length) = some 0 := by
      rw [hP]
      norm_num [npKth, kOf, pyInt]
    have hsh : shapeOk Rex [1] = true := by decide
    simp only [calc_var, hsh, if_true, runPasses, calc_var1, hkth, isOk]

/-- C7 (witness): the failure cases instantiated concretely — a 1×2 return
matrix against a length-1 weight vector, and an empty return matrix with
one confidence level. -/
theorem invalid_input_failures_witness :
    calc_var [[1, 2]] [1] [] = .error .shapeMismatch ∧
      calc_var [] [1] [1 / 2] = .error .kthOutOfBounds :=
  ⟨invalid_input_failures.1 [[1, 2]] [1] [] (by decide),
    invalid_input_failures.2.1 [1] (1 / 2) []⟩

/-- C10: at a two-asset call the returned marginal-VaR field has length 1,
not `N = 2`: the constructor's trailing comma
(`self.marginal_var = marginal_var,`) stores a 1-tuple wrapping the
per-asset list; the incremental-VaR field is a flat length-2 vector as
claimed. -/
theorem marginal_var_is_tuple_eval :
    (firstResult (calc_var Rex2 [1, 1] [1 / 2])).marginal_var.length = 1 ∧
      ((firstResult (calc_var Rex2 [1, 1] [1 / 2])).marginal_var.getD 0
          []).length = 2 ∧
      (firstResult (calc_var Rex2 [1, 1] [1 / 2])).incremental_var.length
          = 2 ∧
      (1 : ℕ) ≠ 2 := by
  have hfr := firstResult_single Rex2 [1, 1] (1 / 2) (by decide)
    (by norm_num) (by norm_num) (by norm_num [matVec, Rex2])
  refine ⟨?_, ?_, ?_, by norm_num⟩ <;> rw [hfr] <;> simp [mkResult]

/-- C6: the return matrix built in `VarEngine.__init__` by `pct_change(1)`
has an all-NaN first row, and therefore the first entry of the derived P&L
series `R @ W` is NaN for every shape-matched weight vector: the engine
never operates on a fully finite return matrix drawn directly from its
input. -/
theorem first_return_row_nan (X : List (List ℚ)) (W : List ℚ)
    (hT : 0 < X.length) (hN : 0 < (X.getD 0 []).length)
    (hW : W.length = (X.getD 0 []).length) :
    (∀ v ∈ (pct_change X).getD 0 [], v = none) ∧
      dotOpt ((pct_change X).getD 0 []) W = none := by
  have hrow : (pct_change X).getD 0 [] =
      (X.getD 0 []).map (fun _ => (none : Option ℚ)) := by
    cases X with
    | nil => simp at hT
    | cons x xs =>
      simp [pct_change, List.range_succ_eq_map]
  constructor
  · intro v hv
    rw [hrow] at hv
    rcases List.mem_map.1 hv with ⟨a, _, ha⟩
    exact ha.symm
  · rw [hrow]
    rcases hx : X.getD 0 [] with _ | ⟨a, l⟩
    · rw [hx] at hN
      simp at hN
    · rcases W with _ | ⟨w, ws⟩
      · rw [hx] at hW
        simp at hW
      · simp [dotOpt]

/-- C6 (witness): the NaN first P&L entry at the 2×1 price series
`[[1], [2]]` with weight `[5]`. -/
theorem first_return_row_nan_witness :
    dotOpt ((pct_change [[(1 : ℚ)], [2]]).getD 0 []) [5] = none :=
  (first_return_row_nan [[(1 : ℚ)], [2]] [5] (by norm_num) (by simp)
    (by simp)).2

end PSwn
